import Mathlib

/-!
Shallow embedding of the CSP solver in `src/constraintproblem.py` (classes
`Problem`, `BacktrackingSolver`, `AllDifferentConstraint`), together with
theorems checking the specification's claims about it.

Modelling conventions:
* `problem.variables` (a Python dict from variable to domain list) is an
  association list `Store` in dict iteration order.
* Python code that can raise (`IndexError` on `domain[0]` of an empty list)
  or whose loops have no structural bound (the growing work list of
  `update_domains`, the recursion of `backtrack`, the `while` of `sort_both`)
  is modelled in `Option` with an explicit fuel; `none` means the Python run
  would crash or the fuel ran out.  Totality theorems below show the chosen
  fuels are never exhausted on the inputs the solver produces.
* `backtrack` additionally threads a ghost counter `tried` that counts the
  iterations of the `for value in domain` loop (one per candidate value
  tried); it observes the source's control flow and changes no behaviour.
-/

namespace CSP

/-- Variable identifiers: opaque comparable keys (`(row, col)` pairs in the
sudoku encoder), modelled as naturals. -/
abbrev Var := Nat

/-- Domain values (digits 1–9 in the sudoku encoder). -/
abbrev Val := Nat

/-- A domain is an ordered list of candidate values. -/
abbrev Domain := List Val

/-- `problem.variables`: association list from variable to domain, in dict
iteration order. -/
abbrev Store := List (Var × Domain)

/-- An `AllDifferentConstraint` is its list `const_vars`. -/
abbrev Constraint := List Var

/-- `problem.var_constr_dict` as a map from variable to constraint list. -/
abbrev ConstrIndex := Var → List Constraint

/-- Dict read `problem.variables[v]`: the first binding of `v` (unknown keys
give `[]`; the solver only reads keys of the store or variables mentioned in
constraints). -/
def dom : Store → Var → Domain
  | [], _ => []
  | p :: rest, v => if p.1 = v then p.2 else dom rest v

/-- Dict write `problem.variables[v] = d` (no-op on unknown keys). -/
def setDom (s : Store) (v : Var) (d : Domain) : Store :=
  s.map fun p => if p.1 = v then (p.1, d) else p

/-- `Problem.mapVarToConstraints`: `var_constr_dict[v]` is, in constraint-list
order, the constraints whose `const_vars` contain `v`.  (Python appends a
constraint once per occurrence of `v` in its `const_vars`; for duplicate-free
constraints, the only kind the program builds, that is this filter.) -/
def mapVarToConstraints (cs : List Constraint) : ConstrIndex :=
  fun v => cs.filter fun c => c.contains v

/-- `AllDifferentConstraint.getOthers`: the constraint's variables minus `v`. -/
def getOthers (c : Constraint) (v : Var) : List Var :=
  c.filter fun item => item ≠ v

/-- `AllDifferentConstraint.check store c uv`: scanning the other variables of
`c`, any singleton domain that is equal, as a list, to `uv`'s domain refutes
the constraint. -/
def check (store : Store) (c : Constraint) (uv : Var) : Bool :=
  (getOthers c uv).all fun v =>
    !((dom store v).length == 1 && dom store v == dom store uv)

/-- `BacktrackingSolver.check_assignment`: every constraint of every variable
in `assigned` must pass `check`. -/
def check_assignment (index : ConstrIndex) (store : Store) (assigned : List Var) : Bool :=
  assigned.all fun v => (index v).all fun c => check store c v

/-- Innermost loop body of `BacktrackingSolver.update_domains`, for one pair
`(var1, var2)`: if `var2`'s domain is not a singleton and `var1`'s assigned
value (the head `problem.variables[var1][0]`; `none` models the `IndexError`
when `var1`'s domain is empty) occurs in `var2`'s domain, remove its first
occurrence; report `var2` as newly assigned when a singleton remains. -/
def fcVar2 (store : Store) (var1 var2 : Var) : Option (Store × List Var) :=
  if (dom store var2).length ≠ 1 then
    match dom store var1 with
    | [] => none
    | a :: _ =>
      if a ∈ dom store var2 then
        some (setDom store var2 ((dom store var2).erase a),
          if ((dom store var2).erase a).length = 1 then [var2] else [])
      else
        some (store, [])
  else
    some (store, [])

/-- The `for var2 in other_vars` loop of `update_domains`, collecting the
variables newly appended to `assigned`. -/
def fcOthers (store : Store) (var1 : Var) : List Var → Option (Store × List Var)
  | [] => some (store, [])
  | var2 :: rest =>
    match fcVar2 store var1 var2 with
    | none => none
    | some (s1, a1) =>
      match fcOthers s1 var1 rest with
      | none => none
      | some (s2, a2) => some (s2, a1 ++ a2)

/-- The `for constraint_obj in myconstraints` loop of `update_domains`. -/
def fcConstraints (store : Store) (var1 : Var) : List Constraint → Option (Store × List Var)
  | [] => some (store, [])
  | c :: rest =>
    match fcOthers store var1 (getOthers c var1) with
    | none => none
    | some (s1, a1) =>
      match fcConstraints s1 var1 rest with
      | none => none
      | some (s2, a2) => some (s2, a1 ++ a2)

/-- The `for var1 in assigned` worklist loop of `update_domains`: Python
iterates over `assigned` while the body appends to it, i.e. a FIFO queue.
`visited` accumulates the processed prefix, so the returned list is the final
contents of Python's `assigned`. -/
def propQueue (index : ConstrIndex) : Nat → Store → List Var → List Var → Option (Store × List Var)
  | _, store, [], visited => some (store, visited)
  | 0, _, _ :: _, _ => none
  | fuel + 1, store, var1 :: rest, visited =>
    match fcConstraints store var1 (index var1) with
    | none => none
    | some (s1, a1) => propQueue index fuel s1 (rest ++ a1) (visited ++ [var1])

/-- `BacktrackingSolver.update_domains`: an empty seed means "scan the store
for singleton domains, in iteration order".  Returns the updated store and
the final `assigned` list. -/
def update_domains (index : ConstrIndex) (fuel : Nat) (store : Store)
    (assigned : List Var) : Option (Store × List Var) :=
  propQueue index fuel store
    (if assigned.length = 0 then
      (store.filter fun p => p.2.length == 1).map Prod.fst
    else assigned) []

/-- Lexicographic comparison of `(Nat, Nat)` pairs: Python's tuple order used
by `list.sort()` in `sort_mrv` and `sort_dh`. -/
def lexLe (a b : Nat × Nat) : Bool :=
  decide (a.1 < b.1) || (a.1 == b.1 && decide (a.2 ≤ b.2))

/-- `BacktrackingSolver.sort_mrv`: sort the `(domain length, v)` pairs and
take the first variable, i.e. the lexicographic minimum (`none` models the
`IndexError` on an empty `unassigned`). -/
def sort_mrv (store : Store) (unassigned : List Var) : Option Var :=
  (((unassigned.map fun v => ((dom store v).length, v)).mergeSort lexLe).head?).map Prod.snd

/-- The `c_list` computed by `sort_dh` for one variable: its distinct
constraint-neighbours lying in `unassigned`, in first-encounter order. -/
def cList (index : ConstrIndex) (unassigned : List Var) (v : Var) : List Var :=
  ((index v).flatMap fun c => getOthers c v).foldl
    (fun acc o => if o ∈ unassigned ∧ o ∉ acc then acc ++ [o] else acc) []

/-- `BacktrackingSolver.sort_dh`: sort the `(neighbour count, v)` pairs and
take the first variable. -/
def sort_dh (index : ConstrIndex) (unassigned : List Var) : Option Var :=
  (((unassigned.map fun v => ((cList index unassigned v).length, v)).mergeSort lexLe).head?).map
    Prod.snd

/-- The `while len(mrv) == 0` scan of `sort_both`, trying domain sizes upward
from 2.  Python's loop is unbounded; fuel `maxDomLen + 1` reaches any domain
size that occurs (an `unassigned` containing no variable of any scanned size
makes Python loop forever, here the fuel runs out to `[]`). -/
def mrvScan (store : Store) (unassigned : List Var) : Nat → Nat → List Var
  | 0, _ => []
  | fuel + 1, size =>
    let mrv := unassigned.filter fun v => (dom store v).length == size
    if mrv.isEmpty then mrvScan store unassigned fuel (size + 1) else mrv

/-- Largest domain length among `unassigned`, used only to bound the scan of
`sort_both`. -/
def maxDomLen (store : Store) (unassigned : List Var) : Nat :=
  unassigned.foldl (fun m v => max m (dom store v).length) 0

/-- `BacktrackingSolver.sort_both`: restrict to the variables of the smallest
occupied domain size ≥ 2, then run `sort_dh` with that restricted list as its
`unassigned` argument. -/
def sort_both (store : Store) (index : ConstrIndex) (unassigned : List Var) : Option Var :=
  sort_dh index (mrvScan store unassigned (maxDomLen store unassigned + 1) 2)

/-- The heuristic flags of `BacktrackingSolver.__init__`. -/
structure Config where
  forward_checking : Bool
  mrv : Bool
  dh : Bool

/-- The variable-selection dispatch at the top of `backtrack` (MRV alone, DH
alone, both, or "first unassigned variable in store iteration order"). -/
def selectVar (cfg : Config) (store : Store) (index : ConstrIndex) (u : List Var) : Option Var :=
  if cfg.mrv && !cfg.dh then sort_mrv store u
  else if !cfg.mrv && cfg.dh then sort_dh index u
  else if cfg.mrv && cfg.dh then sort_both store index u
  else ((u.map fun v => ((dom store v).length, v)).head?).map Prod.snd

/-- The unassigned variables: `[var for var in problem.variables if
len(problem.variables[var]) > 1]`. -/
def unassignedVars (store : Store) : List Var :=
  (store.filter fun p => decide (1 < p.2.length)).map Prod.fst

/-- Result of `backtrack`: Python returns either the variables dict (a
solution) or `False`. -/
inductive BTResult where
  | fail : BTResult
  | solution : Store → BTResult
deriving DecidableEq, Repr

/-- The `for value in domain` loop of `backtrack`.  `snapshot` is
`copy_variables`: every iteration starts from it (Python restores
`problem.variables` at the end of each failed iteration) and it is returned
with `False` on exhaustion.  `recurse` is the recursive call at one less
fuel; the two trailing naturals are `problem.splits` and the ghost `tried`
counter (incremented once per loop iteration). -/
def tryValues (index : ConstrIndex)
    (recurse : Store → Nat → Nat → Option (BTResult × Store × Nat × Nat)) :
    Store → Var → List Val → Nat → Nat → Option (BTResult × Store × Nat × Nat)
  | snapshot, _, [], splits, tried => some (.fail, snapshot, splits, tried)
  | snapshot, x, val :: rest, splits, tried =>
    let s1 := setDom snapshot x [val]
    match update_domains index (s1.length + 2) s1 [x] with
    | none => none
    | some (s2, assigned) =>
      if check_assignment index s2 assigned then
        match recurse s2 (splits + 1) (tried + 1) with
        | none => none
        | some (.solution sol, st, splits2, tried2) =>
          some (.solution sol, st, splits2, tried2)
        | some (.fail, _, splits2, tried2) =>
          tryValues index recurse snapshot x rest splits2 tried2
      else tryValues index recurse snapshot x rest splits (tried + 1)

/-- `BacktrackingSolver.backtrack`.  `fuel` bounds the recursion depth
(Python uses the call stack; the termination theorem below shows depth
`countBig + 1` suffices).  Returns the result, the final
`problem.variables`, the final `problem.splits`, and the final ghost `tried`
count. -/
def backtrack (cfg : Config) (index : ConstrIndex) :
    Nat → Store → Nat → Nat → Option (BTResult × Store × Nat × Nat)
  | 0, _, _, _ => none
  | fuel + 1, store, splits, tried =>
    let u := unassignedVars store
    if u.isEmpty then some (.solution store, store, splits, tried)
    else
      match selectVar cfg store index u with
      | none => none
      | some x =>
        tryValues index (backtrack cfg index fuel) store x (dom store x) splits tried

/-- `BacktrackingSolver.getSolution`: when forward checking is enabled, first
run the propagator over the whole store (empty seed), then backtrack. -/
def getSolution (cfg : Config) (index : ConstrIndex) (fuel : Nat) (store : Store) :
    Option (BTResult × Store × Nat × Nat) :=
  if cfg.forward_checking then
    match update_domains index (store.length + 1) store [] with
    | none => none
    | some (s1, _) => backtrack cfg index fuel s1 0 0
  else backtrack cfg index fuel store 0 0

/-- Number of store keys with more than one candidate left (the measure that
shrinks at every committed branch point). -/
def countBig (s : Store) : Nat :=
  (s.map Prod.fst).countP fun v => decide (1 < (dom s v).length)

/-! ### Basic store lemmas -/

theorem keys_setDom (s : Store) (v : Var) (d : Domain) :
    (setDom s v d).map Prod.fst = s.map Prod.fst := by
  induction s with
  | nil => rfl
  | cons p rest ih =>
    simp only [setDom, List.map_cons] at *
    by_cases h : p.1 = v <;> simp [h, ih]

theorem dom_setDom_of_ne (s : Store) {v w : Var} (d : Domain) (h : w ≠ v) :
    dom (setDom s v d) w = dom s w := by
  induction s with
  | nil => rfl
  | cons p rest ih =>
    show dom ((if p.1 = v then (p.1, d) else p) :: setDom rest v d) w = dom (p :: rest) w
    by_cases hp : p.1 = v
    · have hne : p.1 ≠ w := by
        rw [hp]
        exact fun he => h he.symm
      rw [if_pos hp]
      show (if p.1 = w then d else dom (setDom rest v d) w) = dom (p :: rest) w
      rw [if_neg hne]
      show dom (setDom rest v d) w = dom (p :: rest) w
      rw [ih]
      show dom rest w = if p.1 = w then p.2 else dom rest w
      rw [if_neg hne]
    · rw [if_neg hp]
      show (if p.1 = w then p.2 else dom (setDom rest v d) w) = dom (p :: rest) w
      by_cases hw : p.1 = w
      · rw [if_pos hw]
        show p.2 = if p.1 = w then p.2 else dom rest w
        rw [if_pos hw]
      · rw [if_neg hw, ih]
        show dom rest w = if p.1 = w then p.2 else dom rest w
        rw [if_neg hw]

theorem dom_setDom_self (s : Store) {v : Var} (d : Domain)
    (h : v ∈ s.map Prod.fst) : dom (setDom s v d) v = d := by
  induction s with
  | nil => simp at h
  | cons p rest ih =>
    show dom ((if p.1 = v then (p.1, d) else p) :: setDom rest v d) v = d
    by_cases hp : p.1 = v
    · rw [if_pos hp]
      show (if p.1 = v then d else dom (setDom rest v d) v) = d
      rw [if_pos hp]
    · rw [if_neg hp]
      show (if p.1 = v then p.2 else dom (setDom rest v d) v) = d
      rw [if_neg hp]
      have hv : v ∈ rest.map Prod.fst := by
        have h' : v = p.1 ∨ v ∈ rest.map Prod.fst := by
          simpa only [List.map_cons, List.mem_cons] using h
        rcases h' with h' | h'
        · exact absurd h'.symm hp
        · exact h'
      exact ih hv

theorem setDom_of_not_mem (s : Store) {v : Var} (d : Domain)
    (h : v ∉ s.map Prod.fst) : setDom s v d = s := by
  induction s with
  | nil => rfl
  | cons p rest ih =>
    simp only [List.map_cons, List.mem_cons, not_or] at h
    show (if p.1 = v then (p.1, d) else p) :: setDom rest v d = p :: rest
    rw [if_neg (fun he => h.1 he.symm), ih h.2]

theorem mem_keys_of_dom_ne_nil {s : Store} {v : Var} (h : dom s v ≠ []) :
    v ∈ s.map Prod.fst := by
  induction s with
  | nil => exact absurd rfl h
  | cons p rest ih =>
    simp only [dom] at h
    by_cases hp : p.1 = v
    · simp [hp]
    · simp only [hp, if_false] at h
      simp [ih h]

theorem pair_dom_mem {s : Store} {v : Var} (h : v ∈ s.map Prod.fst) :
    (v, dom s v) ∈ s := by
  induction s with
  | nil => simp at h
  | cons p rest ih =>
    simp only [List.map_cons, List.mem_cons] at h
    simp only [dom]
    by_cases hp : p.1 = v
    · rw [if_pos hp]
      have he : (v, p.2) = p := by rw [← hp]
      rw [he]
      exact List.mem_cons_self p rest
    · have hv : v ∈ rest.map Prod.fst := by
        rcases h with h | h
        · exact absurd h.symm hp
        · exact h
      rw [if_neg hp]
      exact List.mem_cons_of_mem p (ih hv)

theorem dom_eq_of_nodup_mem {s : Store} (hnd : (s.map Prod.fst).Nodup)
    {p : Var × Domain} (hp : p ∈ s) : dom s p.1 = p.2 := by
  induction s with
  | nil => simp at hp
  | cons q rest ih =>
    simp only [List.map_cons, List.nodup_cons] at hnd
    rcases List.mem_cons.1 hp with h | h
    · subst h
      simp [dom]
    · have hne : q.1 ≠ p.1 := by
        intro he
        exact hnd.1 (he ▸ (List.mem_map.2 ⟨p, h, rfl⟩))
      simp [dom, hne, ih hnd.2 h]

/-! ### Invariants of one propagation step -/

/-- Facts preserved by every store transformation the propagator performs:
keys unchanged, singleton domains untouched, domains never grow, non-empty
domains stay non-empty. -/
structure Steps (s s' : Store) : Prop where
  keys : s'.map Prod.fst = s.map Prod.fst
  frame : ∀ v, (dom s v).length = 1 → dom s' v = dom s v
  mono : ∀ v, (dom s' v).length ≤ (dom s v).length
  ne : ∀ v, dom s v ≠ [] → dom s' v ≠ []

theorem steps_refl (s : Store) : Steps s s :=
  ⟨rfl, fun _ _ => rfl, fun _ => Nat.le_refl _, fun _ h => h⟩

theorem steps_trans {s₁ s₂ s₃ : Store} (h₁ : Steps s₁ s₂) (h₂ : Steps s₂ s₃) :
    Steps s₁ s₃ := by
  refine ⟨h₂.keys.trans h₁.keys, ?_, ?_, ?_⟩
  · intro v hv
    have e := h₁.frame v hv
    have : (dom s₂ v).length = 1 := by rw [e]; exact hv
    rw [h₂.frame v this, e]
  · intro v
    exact Nat.le_trans (h₂.mono v) (h₁.mono v)
  · intro v hv
    exact h₂.ne v (h₁.ne v hv)

/-- Facts about the variables a propagation step appends to the work list:
each is a singleton afterwards, and (given duplicate-free keys) the count of
unassigned keys drops by at least the number of appended variables. -/
structure NewOk (s s' : Store) (A : List Var) : Prop where
  single : ∀ a ∈ A, (dom s' a).length = 1
  count : (s.map Prod.fst).Nodup → countBig s' + A.length ≤ countBig s

theorem newOk_refl (s : Store) : NewOk s s [] :=
  ⟨fun a ha => absurd ha (List.not_mem_nil a), fun _ => by simp⟩

theorem newOk_trans {s₁ s₂ s₃ : Store} {A₁ A₂ : List Var}
    (st₁ : Steps s₁ s₂) (st₂ : Steps s₂ s₃) (h₁ : NewOk s₁ s₂ A₁) (h₂ : NewOk s₂ s₃ A₂) :
    NewOk s₁ s₃ (A₁ ++ A₂) := by
  refine ⟨?_, ?_⟩
  · intro a ha
    rcases List.mem_append.1 ha with h | h
    · have h1 := h₁.single a h
      rw [st₂.frame a h1]
      exact h1
    · exact h₂.single a h
  · intro hnd
    have hnd₂ : (s₂.map Prod.fst).Nodup := by
      rw [st₁.keys]
      exact hnd
    have c₁ := h₁.count hnd
    have c₂ := h₂.count hnd₂
    simp only [List.length_append]
    omega

/-- Pointwise update of a `countP` at one position of a duplicate-free list. -/
theorem countP_update {l : List Var} (hl : l.Nodup) {f g : Var → Bool} {v : Var}
    (hv : v ∈ l) (hfg : ∀ w, w ≠ v → f w = g w) :
    l.countP g + (f v).toNat = l.countP f + (g v).toNat := by
  induction l with
  | nil => simp at hv
  | cons a rest ih =>
    simp only [List.nodup_cons] at hl
    rcases List.mem_cons.1 hv with h | h
    · subst h
      have : rest.countP f = rest.countP g :=
        List.countP_congr fun w hw => by
          rw [hfg w (fun he => hl.1 (he ▸ hw))]
      rw [List.countP_cons, List.countP_cons, this]
      cases hf : f v <;> cases hg : g v <;> simp [hf, hg]
    · have hne : a ≠ v := fun he => hl.1 (he ▸ h)
      have := ih hl.2 h
      rw [List.countP_cons, List.countP_cons, hfg a hne]
      cases hg : g a <;> simp [hg] at * <;> omega

/-! ### Propagation-step lemmas -/

theorem fcVar2_spec {s : Store} {v1 v2 : Var} {s' : Store} {A : List Var}
    (h : fcVar2 s v1 v2 = some (s', A)) : Steps s s' ∧ NewOk s s' A := by
  unfold fcVar2 at h
  split at h
  case isFalse h2 =>
    simp only [Option.some.injEq, Prod.mk.injEq] at h
    obtain ⟨h1, h2'⟩ := h
    subst h1; subst h2'
    exact ⟨steps_refl s, newOk_refl s⟩
  case isTrue h2 =>
    split at h
    case h_1 => exact absurd h (by simp)
    case h_2 a rest hd =>
      split at h
      case isFalse hmem =>
        simp only [Option.some.injEq, Prod.mk.injEq] at h
        obtain ⟨h1, h2'⟩ := h
        subst h1; subst h2'
        exact ⟨steps_refl s, newOk_refl s⟩
      case isTrue hmem =>
        simp only [Option.some.injEq, Prod.mk.injEq] at h
        obtain ⟨h1, h2'⟩ := h
        subst h1; subst h2'
        have hnil : dom s v2 ≠ [] := List.ne_nil_of_mem hmem
        have hk : v2 ∈ s.map Prod.fst := mem_keys_of_dom_ne_nil hnil
        have hpos : 0 < (dom s v2).length := List.length_pos.2 hnil
        have hlen2 : 2 ≤ (dom s v2).length := by omega
        have hel : ((dom s v2).erase a).length = (dom s v2).length - 1 :=
          List.length_erase_of_mem hmem
        have hself : dom (setDom s v2 ((dom s v2).erase a)) v2 = (dom s v2).erase a :=
          dom_setDom_self s _ hk
        have hoth : ∀ w, w ≠ v2 → dom (setDom s v2 ((dom s v2).erase a)) w = dom s w :=
          fun w hw => dom_setDom_of_ne s _ hw
        have hsteps : Steps s (setDom s v2 ((dom s v2).erase a)) := by
          refine ⟨keys_setDom s v2 _, ?_, ?_, ?_⟩
          · intro v hv
            have hvne : v ≠ v2 := fun he => h2 (he ▸ hv)
            exact hoth v hvne
          · intro v
            by_cases hv : v = v2
            · subst hv
              rw [hself, hel]
              omega
            · rw [hoth v hv]
          · intro v hv
            by_cases hve : v = v2
            · rw [hve]
              rw [hself]
              have hpos2 : 0 < ((dom s v2).erase a).length := by omega
              exact List.ne_nil_of_length_pos hpos2
            · rw [hoth v hve]
              exact hv
        refine ⟨hsteps, ?_, ?_⟩
        · intro b hb
          by_cases he1 : ((dom s v2).erase a).length = 1
          · rw [if_pos he1] at hb
            have hb2 : b = v2 := List.mem_singleton.1 hb
            subst hb2
            rw [hself]
            exact he1
          · rw [if_neg he1] at hb
            simp at hb
        · intro hnd
          have hcu := countP_update (l := s.map Prod.fst) hnd
            (f := fun v => decide (1 < (dom s v).length))
            (g := fun v => decide (1 < (dom (setDom s v2 ((dom s v2).erase a)) v).length))
            (v := v2) hk
            (fun w hw => by simp only [hoth w hw])
          beta_reduce at hcu
          have hf2 : (decide (1 < (dom s v2).length)).toNat = 1 := by
            simp only [Bool.toNat_eq_one, decide_eq_true_eq]
            omega
          unfold countBig
          rw [keys_setDom]
          rw [hf2] at hcu
          by_cases he1 : ((dom s v2).erase a).length = 1
          · have hg2 : (decide (1 < (dom (setDom s v2 ((dom s v2).erase a)) v2).length)).toNat
                = 0 := by
              rw [hself, he1]
              simp
            rw [hg2] at hcu
            rw [if_pos he1]
            simp only [List.length_singleton]
            omega
          · have hgt : 1 < ((dom s v2).erase a).length := by omega
            have hg2 : (decide (1 < (dom (setDom s v2 ((dom s v2).erase a)) v2).length)).toNat
                = 1 := by
              rw [hself]
              simp [hgt]
            rw [hg2] at hcu
            rw [if_neg he1]
            simp only [List.length_nil]
            omega

theorem fcVar2_total {s : Store} {v1 : Var} (v2 : Var) (h : dom s v1 ≠ []) :
    ∃ out, fcVar2 s v1 v2 = some out := by
  unfold fcVar2
  split
  · split
    next hd => exact absurd hd h
    next a rest hd =>
      split
      · exact ⟨_, rfl⟩
      · exact ⟨_, rfl⟩
  · exact ⟨_, rfl⟩

theorem fcOthers_spec {s : Store} {v1 : Var} :
    ∀ {os : List Var} {s' : Store} {A : List Var},
      fcOthers s v1 os = some (s', A) → Steps s s' ∧ NewOk s s' A := by
  intro os
  induction os generalizing s with
  | nil =>
    intro s' A h
    simp only [fcOthers, Option.some.injEq, Prod.mk.injEq] at h
    obtain ⟨h1, h2⟩ := h
    subst h1; subst h2
    exact ⟨steps_refl s, newOk_refl s⟩
  | cons v2 rest ih =>
    intro s' A h
    simp only [fcOthers] at h
    split at h
    next => exact absurd h (by simp)
    next s1 a1 hf =>
      split at h
      next => exact absurd h (by simp)
      next s2 a2 hr =>
        simp only [Option.some.injEq, Prod.mk.injEq] at h
        obtain ⟨h1, h2⟩ := h
        subst h1; subst h2
        obtain ⟨st1, nk1⟩ := fcVar2_spec hf
        obtain ⟨st2, nk2⟩ := ih hr
        exact ⟨steps_trans st1 st2, newOk_trans st1 st2 nk1 nk2⟩

theorem fcOthers_total {s : Store} {v1 : Var} (os : List Var)
    (h1 : (dom s v1).length = 1) : ∃ out, fcOthers s v1 os = some out := by
  induction os generalizing s with
  | nil => exact ⟨_, rfl⟩
  | cons v2 rest ih =>
    have hne : dom s v1 ≠ [] := by
      intro he
      rw [he] at h1
      simp at h1
    obtain ⟨⟨s1, a1⟩, hf⟩ := fcVar2_total v2 hne
    obtain ⟨st1, _⟩ := fcVar2_spec hf
    have h1' : (dom s1 v1).length = 1 := by
      rw [st1.frame v1 h1]
      exact h1
    obtain ⟨⟨s2, a2⟩, hr⟩ := ih h1'
    refine ⟨(s2, a1 ++ a2), ?_⟩
    simp only [fcOthers, hf, hr]

theorem fcConstraints_spec {s : Store} {v1 : Var} :
    ∀ {cs : List Constraint} {s' : Store} {A : List Var},
      fcConstraints s v1 cs = some (s', A) → Steps s s' ∧ NewOk s s' A := by
  intro cs
  induction cs generalizing s with
  | nil =>
    intro s' A h
    simp only [fcConstraints, Option.some.injEq, Prod.mk.injEq] at h
    obtain ⟨h1, h2⟩ := h
    subst h1; subst h2
    exact ⟨steps_refl s, newOk_refl s⟩
  | cons c rest ih =>
    intro s' A h
    simp only [fcConstraints] at h
    split at h
    next => exact absurd h (by simp)
    next s1 a1 hf =>
      split at h
      next => exact absurd h (by simp)
      next s2 a2 hr =>
        simp only [Option.some.injEq, Prod.mk.injEq] at h
        obtain ⟨h1, h2⟩ := h
        subst h1; subst h2
        obtain ⟨st1, nk1⟩ := fcOthers_spec hf
        obtain ⟨st2, nk2⟩ := ih hr
        exact ⟨steps_trans st1 st2, newOk_trans st1 st2 nk1 nk2⟩

theorem fcConstraints_total {s : Store} {v1 : Var} (cs : List Constraint)
    (h1 : (dom s v1).length = 1) : ∃ out, fcConstraints s v1 cs = some out := by
  induction cs generalizing s with
  | nil => exact ⟨_, rfl⟩
  | cons c rest ih =>
    obtain ⟨⟨s1, a1⟩, hf⟩ := fcOthers_total (getOthers c v1) h1
    obtain ⟨st1, _⟩ := fcOthers_spec hf
    have h1' : (dom s1 v1).length = 1 := by
      rw [st1.frame v1 h1]
      exact h1
    obtain ⟨⟨s2, a2⟩, hr⟩ := ih h1'
    refine ⟨(s2, a1 ++ a2), ?_⟩
    simp only [fcConstraints, hf, hr]

theorem propQueue_steps {ix : ConstrIndex} :
    ∀ {fuel : Nat} {s : Store} {q vis : List Var} {s' : Store} {as : List Var},
      propQueue ix fuel s q vis = some (s', as) → Steps s s' := by
  intro fuel
  induction fuel with
  | zero =>
    intro s q vis s' as h
    cases q with
    | nil =>
      simp only [propQueue, Option.some.injEq, Prod.mk.injEq] at h
      obtain ⟨h1, _⟩ := h
      subst h1
      exact steps_refl s
    | cons v1 rest => exact absurd h (by simp [propQueue])
  | succ fuel ih =>
    intro s q vis s' as h
    cases q with
    | nil =>
      simp only [propQueue, Option.some.injEq, Prod.mk.injEq] at h
      obtain ⟨h1, _⟩ := h
      subst h1
      exact steps_refl s
    | cons v1 rest =>
      simp only [propQueue] at h
      split at h
      next => exact absurd h (by simp)
      next s1 a1 hf =>
        obtain ⟨st1, _⟩ := fcConstraints_spec hf
        exact steps_trans st1 (ih h)

theorem propQueue_total {ix : ConstrIndex} :
    ∀ {fuel : Nat} {s : Store} {q : List Var} (vis : List Var),
      (s.map Prod.fst).Nodup → (∀ v ∈ q, (dom s v).length = 1) →
      q.length + countBig s < fuel → ∃ out, propQueue ix fuel s q vis = some out := by
  intro fuel
  induction fuel with
  | zero =>
    intro s q vis _ _ hf
    exact absurd hf (Nat.not_lt_zero _)
  | succ fuel ih =>
    intro s q vis hnd hq hf
    cases q with
    | nil => exact ⟨_, rfl⟩
    | cons v1 rest =>
      obtain ⟨⟨s1, a1⟩, hfc⟩ := fcConstraints_total (ix v1)
        (hq v1 (List.mem_cons_self v1 rest))
      obtain ⟨st1, nk1⟩ := fcConstraints_spec hfc
      have hnd1 : (s1.map Prod.fst).Nodup := by
        rw [st1.keys]
        exact hnd
      have hq1 : ∀ v ∈ rest ++ a1, (dom s1 v).length = 1 := by
        intro v hv
        rcases List.mem_append.1 hv with hv | hv
        · have h1 := hq v (List.mem_cons_of_mem v1 hv)
          rw [st1.frame v h1]
          exact h1
        · exact nk1.single v hv
      have hcnt := nk1.count hnd
      have hf1 : (rest ++ a1).length + countBig s1 < fuel := by
        simp only [List.length_append]
        simp only [List.length_cons] at hf
        omega
      obtain ⟨out, hr⟩ := ih (vis ++ [v1]) hnd1 hq1 hf1
      refine ⟨out, ?_⟩
      simp only [propQueue, hfc, hr]

/-- Every successful run of the propagator preserves keys, singleton domains,
domain monotonicity and non-emptiness. -/
theorem update_domains_steps {ix : ConstrIndex} {fuel : Nat} {s : Store}
    {seed : List Var} {s' : Store} {as : List Var}
    (h : update_domains ix fuel s seed = some (s', as)) : Steps s s' :=
  propQueue_steps h

/-- The propagator cannot run out of fuel or crash when seeded with one
already-assigned variable and given fuel beyond `1 + countBig`. -/
theorem update_domains_total_single (ix : ConstrIndex) {fuel : Nat} {s : Store} {x : Var}
    (hnd : (s.map Prod.fst).Nodup) (hx : (dom s x).length = 1)
    (hf : 1 + countBig s < fuel) : ∃ out, update_domains ix fuel s [x] = some out := by
  unfold update_domains
  rw [if_neg (by simp)]
  exact propQueue_total [] hnd (by simpa using hx) (by simpa using hf)

/-! ### Fixed-point (no-op) lemmas for the propagator -/

theorem fcVar2_noop {s : Store} {v1 v2 : Var} {a : Val} (h1 : dom s v1 = [a])
    (hno : 1 < (dom s v2).length → a ∉ dom s v2) : fcVar2 s v1 v2 = some (s, []) := by
  unfold fcVar2
  split
  case isFalse => rfl
  case isTrue h2 =>
    simp only [h1]
    have hmem : a ∉ dom s v2 := by
      by_cases h0 : dom s v2 = []
      · rw [h0]
        simp
      · have hpos : 0 < (dom s v2).length := List.length_pos.2 h0
        have : 1 < (dom s v2).length := by omega
        exact hno this
    rw [if_neg hmem]

theorem fcOthers_noop {s : Store} {v1 : Var} {a : Val} (h1 : dom s v1 = [a]) :
    ∀ {os : List Var}, (∀ w ∈ os, 1 < (dom s w).length → a ∉ dom s w) →
      fcOthers s v1 os = some (s, []) := by
  intro os
  induction os with
  | nil => intro _; rfl
  | cons v2 rest ih =>
    intro hno
    have h2 := fcVar2_noop h1 (hno v2 (List.mem_cons_self v2 rest))
    have hr := ih fun w hw => hno w (List.mem_cons_of_mem v2 hw)
    simp only [fcOthers, h2, hr]
    rfl

theorem fcConstraints_noop {s : Store} {v1 : Var} {a : Val} (h1 : dom s v1 = [a]) :
    ∀ {cs : List Constraint},
      (∀ c ∈ cs, ∀ w ∈ getOthers c v1, 1 < (dom s w).length → a ∉ dom s w) →
      fcConstraints s v1 cs = some (s, []) := by
  intro cs
  induction cs with
  | nil => intro _; rfl
  | cons c rest ih =>
    intro hno
    have h2 := fcOthers_noop h1 (hno c (List.mem_cons_self c rest))
    have hr := ih fun c' hc' => hno c' (List.mem_cons_of_mem c hc')
    simp only [fcConstraints, h2, hr]
    rfl

theorem propQueue_noop {ix : ConstrIndex} {s : Store} :
    ∀ {q : List Var} {fuel : Nat} (vis : List Var),
      (∀ v ∈ q, ∃ a, dom s v = [a] ∧
        ∀ c ∈ ix v, ∀ w ∈ getOthers c v, 1 < (dom s w).length → a ∉ dom s w) →
      q.length ≤ fuel → propQueue ix fuel s q vis = some (s, vis ++ q) := by
  intro q
  induction q with
  | nil =>
    intro fuel vis _ _
    cases fuel <;> simp [propQueue]
  | cons v1 rest ih =>
    intro fuel vis hq hf
    cases fuel with
    | zero => simp at hf
    | succ fuel =>
      obtain ⟨a, h1, hno⟩ := hq v1 (List.mem_cons_self v1 rest)
      have hfc := fcConstraints_noop h1 fun c hc => hno c hc
      have hrlen : rest.length ≤ fuel := by
        simp only [List.length_cons] at hf
        omega
      have hr := ih (vis ++ [v1]) (fun v hv => hq v (List.mem_cons_of_mem v1 hv)) hrlen
      simp only [propQueue, hfc]
      rw [List.append_nil]
      rw [hr]
      simp

/-! ### Selection (heuristic) lemmas -/

theorem lexLe_refl (a : Nat × Nat) : lexLe a a = true := by
  simp [lexLe]

theorem lexLe_trans : ∀ (a b c : Nat × Nat), lexLe a b → lexLe b c → lexLe a c := by
  intro a b c
  simp only [lexLe, Bool.or_eq_true, Bool.and_eq_true, decide_eq_true_eq, beq_iff_eq]
  omega

theorem lexLe_total : ∀ (a b : Nat × Nat), lexLe a b || lexLe b a := by
  intro a b
  simp only [lexLe, Bool.or_eq_true, Bool.and_eq_true, decide_eq_true_eq, beq_iff_eq]
  omega

theorem lexLe_iff {a b : Nat × Nat} :
    lexLe a b = true ↔ a.1 < b.1 ∨ (a.1 = b.1 ∧ a.2 ≤ b.2) := by
  simp only [lexLe, Bool.or_eq_true, Bool.and_eq_true, decide_eq_true_eq, beq_iff_eq]

theorem mergeSort_head_min {l : List (Nat × Nat)} (h : l ≠ []) :
    ∃ m, (l.mergeSort lexLe).head? = some m ∧ m ∈ l ∧ ∀ x ∈ l, lexLe m x = true := by
  have hne : l.mergeSort lexLe ≠ [] := by
    intro he
    have hl := (List.mergeSort_perm l lexLe).length_eq
    rw [he] at hl
    exact h (List.length_eq_zero.1 hl.symm)
  obtain ⟨m, t, hmt⟩ := List.exists_cons_of_ne_nil hne
  have hsorted : (l.mergeSort lexLe).Pairwise fun a b => lexLe a b :=
    List.sorted_mergeSort (fun a b c => lexLe_trans a b c) (fun a b => lexLe_total a b) l
  refine ⟨m, by rw [hmt]; rfl, ?_, ?_⟩
  · have hm : m ∈ l.mergeSort lexLe := by
      rw [hmt]
      exact List.mem_cons_self m t
    exact List.mem_mergeSort.1 hm
  · intro x hx
    have hx' : x ∈ l.mergeSort lexLe := List.mem_mergeSort.2 hx
    rw [hmt] at hx' hsorted
    rcases List.mem_cons.1 hx' with he | ht
    · rw [he]
      exact lexLe_refl m
    · exact (List.pairwise_cons.1 hsorted).1 x ht

theorem sort_mrv_spec (s : Store) {L : List Var} (h : L ≠ []) :
    ∃ v, sort_mrv s L = some v ∧ v ∈ L ∧
      ∀ w ∈ L, lexLe ((dom s v).length, v) ((dom s w).length, w) = true := by
  have hmap : (L.map fun v => ((dom s v).length, v)) ≠ [] := by
    simpa using h
  obtain ⟨m, hhead, hmem, hmin⟩ := mergeSort_head_min hmap
  obtain ⟨w0, hw0, rfl⟩ := List.mem_map.1 hmem
  refine ⟨w0, ?_, hw0, ?_⟩
  · unfold sort_mrv
    rw [hhead]
    rfl
  · intro w hw
    exact hmin _ (List.mem_map_of_mem _ hw)

theorem sort_dh_spec (ix : ConstrIndex) {L : List Var} (h : L ≠ []) :
    ∃ v, sort_dh ix L = some v ∧ v ∈ L ∧
      ∀ w ∈ L, lexLe ((cList ix L v).length, v) ((cList ix L w).length, w) = true := by
  have hmap : (L.map fun v => ((cList ix L v).length, v)) ≠ [] := by
    simpa using h
  obtain ⟨m, hhead, hmem, hmin⟩ := mergeSort_head_min hmap
  obtain ⟨w0, hw0, rfl⟩ := List.mem_map.1 hmem
  refine ⟨w0, ?_, hw0, ?_⟩
  · unfold sort_dh
    rw [hhead]
    rfl
  · intro w hw
    exact hmin _ (List.mem_map_of_mem _ hw)

theorem foldl_max_le_acc {f : Var → Nat} {L : List Var} :
    ∀ acc, acc ≤ L.foldl (fun m x => max m (f x)) acc := by
  induction L with
  | nil => intro acc; exact Nat.le_refl acc
  | cons x t ih =>
    intro acc
    exact Nat.le_trans (Nat.le_max_left acc (f x)) (ih (max acc (f x)))

theorem le_foldl_max {f : Var → Nat} {L : List Var} {v : Var} (hv : v ∈ L) :
    ∀ acc, f v ≤ L.foldl (fun m x => max m (f x)) acc := by
  induction L with
  | nil => simp at hv
  | cons x t ih =>
    intro acc
    rcases List.mem_cons.1 hv with he | ht
    · subst he
      exact Nat.le_trans (Nat.le_max_right acc (f v)) (foldl_max_le_acc _)
    · exact ih ht _

theorem le_maxDomLen {s : Store} {L : List Var} {v : Var} (hv : v ∈ L) :
    (dom s v).length ≤ maxDomLen s L :=
  le_foldl_max (f := fun v => (dom s v).length) hv 0

theorem mrvScan_spec {s : Store} {L : List Var} :
    ∀ (fuel size : Nat), (∀ w ∈ L, size ≤ (dom s w).length) →
      (∃ w ∈ L, (dom s w).length < size + fuel) →
      ∃ m, size ≤ m ∧
        mrvScan s L fuel size = L.filter (fun v => (dom s v).length == m) ∧
        (∃ w ∈ L, (dom s w).length = m) ∧ (∀ w ∈ L, m ≤ (dom s w).length) := by
  intro fuel
  induction fuel with
  | zero =>
    intro size hlo hex
    obtain ⟨w, hw, hlt⟩ := hex
    have := hlo w hw
    omega
  | succ fuel ih =>
    intro size hlo hex
    by_cases hemp : (L.filter fun v => (dom s v).length == size).isEmpty
    · have hnone : ∀ w ∈ L, (dom s w).length ≠ size := by
        intro w hw he
        have : w ∈ L.filter fun v => (dom s v).length == size :=
          List.mem_filter.2 ⟨hw, by simp [he]⟩
        rw [List.isEmpty_iff.1 hemp] at this
        simp at this
      have hlo' : ∀ w ∈ L, size + 1 ≤ (dom s w).length := by
        intro w hw
        have h1 := hlo w hw
        have h2 := hnone w hw
        omega
      have hex' : ∃ w ∈ L, (dom s w).length < (size + 1) + fuel := by
        obtain ⟨w, hw, hlt⟩ := hex
        exact ⟨w, hw, by omega⟩
      obtain ⟨m, hm, heq, hexm, hminm⟩ := ih (size + 1) hlo' hex'
      refine ⟨m, by omega, ?_, hexm, hminm⟩
      simp only [mrvScan, hemp, if_pos]
      exact heq
    · refine ⟨size, Nat.le_refl size, ?_, ?_, hlo⟩
      · simp only [mrvScan, hemp, if_neg, Bool.false_eq_true, not_false_iff]
      · have hne : (L.filter fun v => (dom s v).length == size) ≠ [] := by
          intro he
          rw [he] at hemp
          simp at hemp
        obtain ⟨w, hw⟩ := List.exists_mem_of_ne_nil _ hne
        have := List.mem_filter.1 hw
        exact ⟨w, this.1, by simpa using this.2⟩

theorem sort_both_spec (s : Store) (ix : ConstrIndex) {L : List Var}
    (hne : L ≠ []) (h2 : ∀ v ∈ L, 2 ≤ (dom s v).length) :
    ∃ v m, sort_both s ix L = some v ∧ v ∈ L ∧ (dom s v).length = m ∧
      (∀ w ∈ L, m ≤ (dom s w).length) ∧
      v ∈ (L.filter fun w => (dom s w).length == m) ∧
      (∀ w ∈ (L.filter fun w => (dom s w).length == m),
        lexLe ((cList ix (L.filter fun w' => (dom s w').length == m) v).length, v)
          ((cList ix (L.filter fun w' => (dom s w').length == m) w).length, w) = true) := by
  obtain ⟨w0, hw0⟩ := List.exists_mem_of_ne_nil L hne
  have hex : ∃ w ∈ L, (dom s w).length < 2 + (maxDomLen s L + 1) := by
    refine ⟨w0, hw0, ?_⟩
    have := le_maxDomLen (s := s) hw0
    omega
  obtain ⟨m, _, heq, ⟨wm, hwm, hwmlen⟩, hminm⟩ := mrvScan_spec (maxDomLen s L + 1) 2 h2 hex
  have hGne : (L.filter fun v => (dom s v).length == m) ≠ [] := by
    intro he
    have : wm ∈ L.filter fun v => (dom s v).length == m :=
      List.mem_filter.2 ⟨hwm, by simp [hwmlen]⟩
    rw [he] at this
    simp at this
  obtain ⟨v, hv, hvG, hlex⟩ := sort_dh_spec ix hGne
  have hvL := List.mem_filter.1 hvG
  refine ⟨v, m, ?_, hvL.1, by simpa using hvL.2, hminm, hvG, hlex⟩
  unfold sort_both
  rw [heq]
  exact hv

theorem selectVar_spec (cfg : Config) (s : Store) (ix : ConstrIndex) {u : List Var}
    (hne : u ≠ []) (h2 : ∀ v ∈ u, 2 ≤ (dom s v).length) :
    ∃ x, selectVar cfg s ix u = some x ∧ x ∈ u := by
  unfold selectVar
  split
  · obtain ⟨v, hv, hvu, _⟩ := sort_mrv_spec s hne
    exact ⟨v, hv, hvu⟩
  · split
    · obtain ⟨v, hv, hvu, _⟩ := sort_dh_spec ix hne
      exact ⟨v, hv, hvu⟩
    · split
      · obtain ⟨v, m, hv, hvu, _⟩ := sort_both_spec s ix hne h2
        exact ⟨v, hv, hvu⟩
      · obtain ⟨w0, t, rfl⟩ := List.exists_cons_of_ne_nil hne
        exact ⟨w0, rfl, List.mem_cons_self w0 t⟩

/-! ### Backtracking lemmas -/

/-- Every key's domain is a singleton (the shape of a returned solution). -/
def allSingleton (s : Store) : Prop := ∀ v ∈ s.map Prod.fst, (dom s v).length = 1

/-- Every key's domain is non-empty (the search invariant). -/
def allNonempty (s : Store) : Prop := ∀ v ∈ s.map Prod.fst, dom s v ≠ []

theorem allNonempty_setDom {s : Store} {x : Var} {d : Domain}
    (h : allNonempty s) (hd : d ≠ []) : allNonempty (setDom s x d) := by
  intro v hv
  rw [keys_setDom] at hv
  by_cases hvx : v = x
  · subst hvx
    rw [dom_setDom_self s d hv]
    exact hd
  · rw [dom_setDom_of_ne s d hvx]
    exact h v hv

theorem allNonempty_steps {s s' : Store} (st : Steps s s') (h : allNonempty s) :
    allNonempty s' := by
  intro v hv
  rw [st.keys] at hv
  exact st.ne v (h v hv)

theorem allSingleton_of_no_unassigned {s : Store}
    (hu : unassignedVars s = []) (h : allNonempty s) : allSingleton s := by
  intro v hv
  have hle : ¬ 1 < (dom s v).length := by
    intro hgt
    have hp : (v, dom s v) ∈ s := pair_dom_mem hv
    have : (v, dom s v) ∈ s.filter fun p => decide (1 < p.2.length) :=
      List.mem_filter.2 ⟨hp, by simpa using hgt⟩
    have hmem : v ∈ unassignedVars s := List.mem_map.2 ⟨(v, dom s v), this, rfl⟩
    rw [hu] at hmem
    simp at hmem
  have hne : dom s v ≠ [] := h v hv
  have hpos : 0 < (dom s v).length := List.length_pos.2 hne
  omega

theorem mem_unassignedVars {s : Store} {v : Var}
    (hnd : (s.map Prod.fst).Nodup) (hv : v ∈ unassignedVars s) :
    v ∈ s.map Prod.fst ∧ 1 < (dom s v).length := by
  obtain ⟨p, hp, hpv⟩ := List.mem_map.1 hv
  have hpf := List.mem_filter.1 hp
  have hk : v ∈ s.map Prod.fst := hpv ▸ List.mem_map.2 ⟨p, hpf.1, rfl⟩
  have hd : dom s p.1 = p.2 := dom_eq_of_nodup_mem hnd hpf.1
  refine ⟨hk, ?_⟩
  rw [← hpv, hd]
  simpa using hpf.2

theorem countBig_le_length (s : Store) : countBig s ≤ s.length := by
  unfold countBig
  calc (s.map Prod.fst).countP _ ≤ (s.map Prod.fst).length := List.countP_le_length _
  _ = s.length := List.length_map s Prod.fst

theorem countBig_steps_le {s s' : Store} (st : Steps s s') : countBig s' ≤ countBig s := by
  unfold countBig
  rw [st.keys]
  refine List.countP_mono_left ?_
  intro v _ hv
  simp only [decide_eq_true_eq] at hv ⊢
  exact Nat.lt_of_lt_of_le hv (st.mono v)

theorem countBig_assign_lt {s : Store} {x : Var} {val : Val}
    (hnd : (s.map Prod.fst).Nodup) (hk : x ∈ s.map Prod.fst)
    (hbig : 1 < (dom s x).length) : countBig (setDom s x [val]) < countBig s := by
  have hcu := countP_update (l := s.map Prod.fst) hnd
    (f := fun v => decide (1 < (dom s v).length))
    (g := fun v => decide (1 < (dom (setDom s x [val]) v).length))
    (v := x) hk
    (fun w hw => by simp only [dom_setDom_of_ne s [val] hw])
  beta_reduce at hcu
  have hfx : (decide (1 < (dom s x).length)).toNat = 1 := by
    simp only [Bool.toNat_eq_one, decide_eq_true_eq]
    exact hbig
  have hgx : (decide (1 < (dom (setDom s x [val]) x).length)).toNat = 0 := by
    rw [dom_setDom_self s [val] hk]
    simp
  rw [hfx, hgx] at hcu
  unfold countBig
  rw [keys_setDom]
  omega

theorem tryValues_fail_store {ix : ConstrIndex}
    {recurse : Store → Nat → Nat → Option (BTResult × Store × Nat × Nat)}
    {snapshot : Store} {x : Var} :
    ∀ {vals : List Val} {sp tr sp' tr' : Nat} {st : Store},
      tryValues ix recurse snapshot x vals sp tr = some (.fail, st, sp', tr') →
      st = snapshot := by
  intro vals
  induction vals with
  | nil =>
    intro sp tr sp' tr' st h
    simp only [tryValues, Option.some.injEq, Prod.mk.injEq] at h
    exact h.2.1.symm
  | cons val rest ih =>
    intro sp tr sp' tr' st h
    simp only [tryValues] at h
    split at h
    next => exact absurd h (by simp)
    next s2 assigned hupd =>
      split at h
      · split at h
        next => exact absurd h (by simp)
        next sol st2 sp2 tr2 hrec =>
          simp only [Option.some.injEq, Prod.mk.injEq] at h
          exact absurd h.1.symm (by simp)
        next st2 sp2 tr2 hrec => exact ih h
      · exact ih h

theorem backtrack_fail_store {cfg : Config} {ix : ConstrIndex} :
    ∀ {fuel : Nat} {store : Store} {sp tr sp' tr' : Nat} {st : Store},
      backtrack cfg ix fuel store sp tr = some (.fail, st, sp', tr') → st = store := by
  intro fuel
  cases fuel with
  | zero =>
    intro store sp tr sp' tr' st h
    exact absurd h (by simp [backtrack])
  | succ fuel =>
    intro store sp tr sp' tr' st h
    simp only [backtrack] at h
    split at h
    · simp only [Option.some.injEq, Prod.mk.injEq] at h
      exact absurd h.1.symm (by simp)
    · split at h
      next => exact absurd h (by simp)
      next x hx => exact tryValues_fail_store h

theorem tryValues_counts {ix : ConstrIndex}
    {recurse : Store → Nat → Nat → Option (BTResult × Store × Nat × Nat)}
    (hrec : ∀ s sp tr r st sp' tr', recurse s sp tr = some (r, st, sp', tr') →
      sp ≤ sp' ∧ tr ≤ tr' ∧ sp' + tr ≤ sp + tr') {snapshot : Store} {x : Var} :
    ∀ {vals : List Val} {sp tr : Nat} {r : BTResult} {st : Store} {sp' tr' : Nat},
      tryValues ix recurse snapshot x vals sp tr = some (r, st, sp', tr') →
      sp ≤ sp' ∧ tr ≤ tr' ∧ sp' + tr ≤ sp + tr' := by
  intro vals
  induction vals with
  | nil =>
    intro sp tr r st sp' tr' h
    simp only [tryValues, Option.some.injEq, Prod.mk.injEq] at h
    obtain ⟨_, _, h3, h4⟩ := h
    omega
  | cons val rest ih =>
    intro sp tr r st sp' tr' h
    simp only [tryValues] at h
    split at h
    next => exact absurd h (by simp)
    next s2 assigned hupd =>
      split at h
      · split at h
        next => exact absurd h (by simp)
        next sol st2 sp2 tr2 hrec2 =>
          simp only [Option.some.injEq, Prod.mk.injEq] at h
          obtain ⟨_, _, h3, h4⟩ := h
          have := hrec s2 (sp + 1) (tr + 1) _ _ _ _ hrec2
          omega
        next st2 sp2 tr2 hrec2 =>
          have h1 := hrec s2 (sp + 1) (tr + 1) _ _ _ _ hrec2
          have h2 := ih h
          omega
      · have h2 := ih h
        omega

theorem backtrack_counts {cfg : Config} {ix : ConstrIndex} :
    ∀ {fuel : Nat} {store : Store} {sp tr : Nat} {r : BTResult} {st : Store} {sp' tr' : Nat},
      backtrack cfg ix fuel store sp tr = some (r, st, sp', tr') →
      sp ≤ sp' ∧ tr ≤ tr' ∧ sp' + tr ≤ sp + tr' := by
  intro fuel
  induction fuel with
  | zero =>
    intro store sp tr r st sp' tr' h
    exact absurd h (by simp [backtrack])
  | succ fuel ih =>
    intro store sp tr r st sp' tr' h
    simp only [backtrack] at h
    split at h
    · simp only [Option.some.injEq, Prod.mk.injEq] at h
      obtain ⟨_, _, h3, h4⟩ := h
      omega
    · split at h
      next => exact absurd h (by simp)
      next x hx =>
        exact tryValues_counts (fun s a b r' st' a' b' hr => ih hr) h

theorem tryValues_solution {ix : ConstrIndex}
    {recurse : Store → Nat → Nat → Option (BTResult × Store × Nat × Nat)}
    (hrec : ∀ s sp tr sol st sp' tr', allNonempty s →
      recurse s sp tr = some (.solution sol, st, sp', tr') → allSingleton sol)
    {snapshot : Store} {x : Var} (hsnap : allNonempty snapshot) :
    ∀ {vals : List Val} {sp tr : Nat} {sol st : Store} {sp' tr' : Nat},
      tryValues ix recurse snapshot x vals sp tr = some (.solution sol, st, sp', tr') →
      allSingleton sol := by
  intro vals
  induction vals with
  | nil =>
    intro sp tr sol st sp' tr' h
    simp only [tryValues, Option.some.injEq, Prod.mk.injEq] at h
    exact absurd h.1 (by simp)
  | cons val rest ih =>
    intro sp tr sol st sp' tr' h
    simp only [tryValues] at h
    split at h
    next => exact absurd h (by simp)
    next s2 assigned hupd =>
      have hs1 : allNonempty (setDom snapshot x [val]) :=
        allNonempty_setDom hsnap (by simp)
      have hs2 : allNonempty s2 :=
        allNonempty_steps (update_domains_steps hupd) hs1
      split at h
      · split at h
        next => exact absurd h (by simp)
        next sol2 st2 sp2 tr2 hrec2 =>
          simp only [Option.some.injEq, Prod.mk.injEq] at h
          obtain ⟨h1, _⟩ := h
          have := hrec s2 (sp + 1) (tr + 1) sol2 st2 sp2 tr2 hs2 hrec2
          have hs : sol2 = sol := by
            injection h1
          rw [← hs]
          exact this
        next st2 sp2 tr2 hrec2 => exact ih h
      · exact ih h

theorem backtrack_solution {cfg : Config} {ix : ConstrIndex} :
    ∀ {fuel : Nat} {store : Store} {sp tr : Nat} {sol st : Store} {sp' tr' : Nat},
      allNonempty store →
      backtrack cfg ix fuel store sp tr = some (.solution sol, st, sp', tr') →
      allSingleton sol := by
  intro fuel
  induction fuel with
  | zero =>
    intro store sp tr sol st sp' tr' _ h
    exact absurd h (by simp [backtrack])
  | succ fuel ih =>
    intro store sp tr sol st sp' tr' hne h
    simp only [backtrack] at h
    split at h
    next hemp =>
      simp only [Option.some.injEq, Prod.mk.injEq] at h
      obtain ⟨h1, _⟩ := h
      have hs : store = sol := by
        injection h1
      rw [← hs]
      exact allSingleton_of_no_unassigned (List.isEmpty_iff.1 hemp) hne
    next hemp =>
      split at h
      next => exact absurd h (by simp)
      next x hx =>
        exact tryValues_solution
          (fun s a b sol' st' a' b' hne' hr => ih hne' hr) hne h

theorem tryValues_total (ix : ConstrIndex) {N : Nat}
    (recurse : Store → Nat → Nat → Option (BTResult × Store × Nat × Nat))
    (hrec : ∀ s sp tr, (s.map Prod.fst).Nodup → countBig s < N →
      ∃ out, recurse s sp tr = some out)
    {snapshot : Store} {x : Var} (hnd : (snapshot.map Prod.fst).Nodup)
    (hk : x ∈ snapshot.map Prod.fst) (hbig : 1 < (dom snapshot x).length)
    (hN : countBig snapshot ≤ N) :
    ∀ (vals : List Val) (sp tr : Nat),
      ∃ out, tryValues ix recurse snapshot x vals sp tr = some out := by
  intro vals
  induction vals with
  | nil => intro sp tr; exact ⟨_, rfl⟩
  | cons val rest ih =>
    intro sp tr
    have hnd1 : ((setDom snapshot x [val]).map Prod.fst).Nodup := by
      rw [keys_setDom]
      exact hnd
    have hx1 : (dom (setDom snapshot x [val]) x).length = 1 := by
      rw [dom_setDom_self snapshot [val] hk]
      rfl
    have hc1 : countBig (setDom snapshot x [val]) < countBig snapshot :=
      countBig_assign_lt hnd hk hbig
    have hfu : 1 + countBig (setDom snapshot x [val]) <
        (setDom snapshot x [val]).length + 2 := by
      have := countBig_le_length (setDom snapshot x [val])
      omega
    obtain ⟨⟨s2, assigned⟩, hupd⟩ := update_domains_total_single ix hnd1 hx1 hfu
    have hst := update_domains_steps hupd
    have hnd2 : (s2.map Prod.fst).Nodup := by
      rw [hst.keys]
      exact hnd1
    have hc2 : countBig s2 < N :=
      Nat.lt_of_le_of_lt (countBig_steps_le hst) (Nat.lt_of_lt_of_le hc1 hN)
    by_cases hchk : check_assignment ix s2 assigned
    · obtain ⟨⟨r, st2, sp2, tr2⟩, hout⟩ := hrec s2 (sp + 1) (tr + 1) hnd2 hc2
      cases r with
      | solution sol =>
        refine ⟨(.solution sol, st2, sp2, tr2), ?_⟩
        simp only [tryValues, hupd, hchk, if_true, hout]
      | fail =>
        obtain ⟨out, hrest⟩ := ih sp2 tr2
        refine ⟨out, ?_⟩
        simp only [tryValues, hupd, hchk, if_true, hout, hrest]
    · obtain ⟨out, hrest⟩ := ih sp (tr + 1)
      refine ⟨out, ?_⟩
      simp only [tryValues, hupd, hrest]
      rw [if_neg hchk]

theorem backtrack_total {cfg : Config} {ix : ConstrIndex} :
    ∀ {fuel : Nat} {store : Store} {sp tr : Nat},
      (store.map Prod.fst).Nodup → countBig store < fuel →
      ∃ out, backtrack cfg ix fuel store sp tr = some out := by
  intro fuel
  induction fuel with
  | zero =>
    intro store sp tr _ hf
    exact absurd hf (Nat.not_lt_zero _)
  | succ fuel ih =>
    intro store sp tr hnd hf
    by_cases hemp : (unassignedVars store).isEmpty
    · refine ⟨(.solution store, store, sp, tr), ?_⟩
      simp only [backtrack, hemp, if_true]
    · have hune : unassignedVars store ≠ [] := by
        intro he
        rw [he] at hemp
        simp at hemp
      have h2 : ∀ v ∈ unassignedVars store, 2 ≤ (dom store v).length := by
        intro v hv
        have := (mem_unassignedVars hnd hv).2
        omega
      obtain ⟨x, hsel, hxu⟩ := selectVar_spec cfg store ix hune h2
      obtain ⟨hk, hbig⟩ := mem_unassignedVars hnd hxu
      have hN : countBig store ≤ fuel := Nat.lt_succ_iff.1 hf
      obtain ⟨out, htv⟩ := tryValues_total ix (backtrack cfg ix fuel)
        (fun s a b hnd' hc' => ih hnd' hc') hnd hk hbig hN
        (dom store x) sp tr
      refine ⟨out, ?_⟩
      simp only [backtrack, hsel, htv]
      rw [if_neg (by simpa using hemp)]

theorem tryValues_congr {ix : ConstrIndex}
    {r1 r2 : Store → Nat → Nat → Option (BTResult × Store × Nat × Nat)}
    (h : ∀ s sp tr, r1 s sp tr = r2 s sp tr) :
    ∀ (vals : List Val) (snapshot : Store) (x : Var) (sp tr : Nat),
      tryValues ix r1 snapshot x vals sp tr = tryValues ix r2 snapshot x vals sp tr := by
  intro vals
  induction vals with
  | nil => intro snapshot x sp tr; rfl
  | cons val rest ih =>
    intro snapshot x sp tr
    simp only [tryValues]
    cases update_domains ix ((setDom snapshot x [val]).length + 2)
        (setDom snapshot x [val]) [x] with
    | none => rfl
    | some out =>
      obtain ⟨s2, assigned⟩ := out
      simp only []
      by_cases hchk : check_assignment ix s2 assigned
      · rw [if_pos hchk, if_pos hchk, h s2 (sp + 1) (tr + 1)]
        cases r2 s2 (sp + 1) (tr + 1) with
        | none => rfl
        | some out2 =>
          obtain ⟨r, st, sp2, tr2⟩ := out2
          cases r with
          | solution sol => rfl
          | fail => exact ih snapshot x sp2 tr2
      · rw [if_neg hchk, if_neg hchk]
        exact ih snapshot x sp (tr + 1)

theorem backtrack_fc_any {ix : ConstrIndex} :
    ∀ (fuel : Nat) (m d b b' : Bool) (s : Store) (sp tr : Nat),
      backtrack ⟨b, m, d⟩ ix fuel s sp tr = backtrack ⟨b', m, d⟩ ix fuel s sp tr := by
  intro fuel
  induction fuel with
  | zero => intro m d b b' s sp tr; rfl
  | succ fuel ih =>
    intro m d b b' s sp tr
    simp only [backtrack]
    by_cases hemp : (unassignedVars s).isEmpty
    · rw [if_pos hemp, if_pos hemp]
    · rw [if_neg hemp, if_neg hemp]
      have hsel : selectVar ⟨b, m, d⟩ s ix (unassignedVars s)
          = selectVar ⟨b', m, d⟩ s ix (unassignedVars s) := rfl
      rw [hsel]
      cases selectVar ⟨b', m, d⟩ s ix (unassignedVars s) with
      | none => rfl
      | some x => exact tryValues_congr (fun s' sp' tr' => ih m d b b' s' sp' tr') _ _ _ _ _

theorem update_domains_fixed_point {ix : ConstrIndex} {fuel : Nat} {s : Store}
    (hnd : (s.map Prod.fst).Nodup)
    (hfix : ∀ v ∈ s.map Prod.fst, ∀ c ∈ ix v, ∀ w ∈ getOthers c v,
      (dom s v).length = 1 → 1 < (dom s w).length → ∀ a ∈ dom s v, a ∉ dom s w)
    (hf : s.length ≤ fuel) :
    update_domains ix fuel s [] =
      some (s, (s.filter fun p => p.2.length == 1).map Prod.fst) := by
  unfold update_domains
  rw [if_pos (show ([] : List Var).length = 0 from rfl)]
  have hq : ∀ v ∈ (s.filter fun p => p.2.length == 1).map Prod.fst,
      ∃ a, dom s v = [a] ∧ ∀ c ∈ ix v, ∀ w ∈ getOthers c v,
        1 < (dom s w).length → a ∉ dom s w := by
    intro v hv
    obtain ⟨p, hp, hpv⟩ := List.mem_map.1 hv
    have hpf := List.mem_filter.1 hp
    have hd : dom s p.1 = p.2 := dom_eq_of_nodup_mem hnd hpf.1
    have hlen : (dom s v).length = 1 := by
      rw [← hpv, hd]
      simpa using hpf.2
    obtain ⟨a, ha⟩ := List.length_eq_one.1 hlen
    have hk : v ∈ s.map Prod.fst := by
      rw [← hpv]
      exact List.mem_map.2 ⟨p, hpf.1, rfl⟩
    refine ⟨a, ha, ?_⟩
    intro c hc w hw hbig
    exact hfix v hk c hc w hw hlen hbig a (by rw [ha]; exact List.mem_singleton_self a)
  have hql : ((s.filter fun p => p.2.length == 1).map Prod.fst).length ≤ fuel := by
    calc ((s.filter fun p => p.2.length == 1).map Prod.fst).length
        = (s.filter fun p => p.2.length == 1).length := List.length_map _ _
    _ ≤ s.length := List.length_filter_le _ _
    _ ≤ fuel := hf
  have := propQueue_noop [] hq hql
  simpa using this

theorem check_eq_true_iff {s : Store} {c : Constraint} {uv : Var} :
    check s c uv = true ↔
      ∀ w ∈ c, w ≠ uv → ¬((dom s w).length = 1 ∧ dom s w = dom s uv) := by
  unfold check getOthers
  rw [List.all_eq_true]
  have hbool : ∀ a b : Bool, ((!(a && b)) = true ↔ ¬(a = true ∧ b = true)) := by decide
  constructor
  · intro h w hw hne hand
    have h2 := h w (List.mem_filter.2 ⟨hw, by simpa using hne⟩)
    rw [hbool] at h2
    exact h2 ⟨beq_iff_eq.2 hand.1, beq_iff_eq.2 hand.2⟩
  · intro h w hw
    have hwf := List.mem_filter.1 hw
    have hne : w ≠ uv := by simpa using hwf.2
    rw [hbool]
    intro hand
    exact h w hwf.1 hne ⟨beq_iff_eq.1 hand.1, beq_iff_eq.1 hand.2⟩

/-! ### Claim-modelled variant for C1 -/

/-- Modelled from the spec: claim C1 reads `backtrack` as running the
per-branch propagator seeded with `[x]` only when forward checking is
enabled, and as skipping propagation otherwise, so that domains change only
via the direct assignment of the selected variable and the consistency check
then sees `[x]` alone.  (The source's `backtrack` calls `update_domains`
unconditionally; the counterexample theorem separates the two.) -/
def tryValuesClaim (cfg : Config) (index : ConstrIndex)
    (recurse : Store → Nat → Nat → Option (BTResult × Store × Nat × Nat)) :
    Store → Var → List Val → Nat → Nat → Option (BTResult × Store × Nat × Nat)
  | snapshot, _, [], splits, tried => some (.fail, snapshot, splits, tried)
  | snapshot, x, val :: rest, splits, tried =>
    match (if cfg.forward_checking then
        update_domains index ((setDom snapshot x [val]).length + 2)
          (setDom snapshot x [val]) [x]
      else some (setDom snapshot x [val], [x])) with
    | none => none
    | some (s2, assigned) =>
      if check_assignment index s2 assigned then
        match recurse s2 (splits + 1) (tried + 1) with
        | none => none
        | some (.solution sol, st, splits2, tried2) =>
          some (.solution sol, st, splits2, tried2)
        | some (.fail, _, splits2, tried2) =>
          tryValuesClaim cfg index recurse snapshot x rest splits2 tried2
      else tryValuesClaim cfg index recurse snapshot x rest splits (tried + 1)

/-- Modelled from the spec: the backtracking search as claim C1 describes it,
using `tryValuesClaim` for the candidate-value loop. -/
def backtrackClaim (cfg : Config) (index : ConstrIndex) :
    Nat → Store → Nat → Nat → Option (BTResult × Store × Nat × Nat)
  | 0, _, _, _ => none
  | fuel + 1, store, splits, tried =>
    let u := unassignedVars store
    if u.isEmpty then some (.solution store, store, splits, tried)
    else
      match selectVar cfg store index u with
      | none => none
      | some x =>
        tryValuesClaim cfg index (backtrackClaim cfg index fuel) store x
          (dom store x) splits tried

/-! ### Concrete example problems used by witnesses and counterexamples -/

/-- No heuristics enabled. -/
def cfgPlain : Config := ⟨false, false, false⟩

/-- Two mutually all-different variables over `{1, 2}` (solvable). -/
def exStore2 : Store := [(0, [1, 2]), (1, [1, 2])]

def exIndex2 : ConstrIndex := mapVarToConstraints [[0, 1]]

/-- Three mutually all-different variables over `{1, 2}` (unsolvable). -/
def exStore3 : Store := [(0, [1, 2]), (1, [1, 2]), (2, [1, 2])]

def exIndex3 : ConstrIndex := mapVarToConstraints [[0, 1, 2]]

/-- One assigned variable next to one open variable (a propagation seed). -/
def exStoreSeed : Store := [(0, [1]), (1, [1, 2])]

/-- A propagation fixed point: the singleton value 1 does not occur in its
neighbour's domain `[2, 3]`. -/
def exStoreFix : Store := [(0, [1]), (1, [2, 3])]

/-- Three singleton variables with one duplicated value. -/
def exStoreDup : Store := [(0, [1]), (1, [1]), (2, [2])]

/-- Two singleton variables with distinct values. -/
def exStoreDis : Store := [(0, [1]), (1, [2])]

/-- Variables 0 and 1 have the minimal domain size 2; 0 has three unassigned
neighbours (2, 3, 4, all of domain size 3), 1 has one (variable 2). -/
def exStore6 : Store :=
  [(0, [1, 2]), (1, [1, 2]), (2, [1, 2, 3]), (3, [1, 2, 3]), (4, [1, 2, 3])]

def exIndex6 : ConstrIndex := mapVarToConstraints [[0, 2], [0, 3], [0, 4], [1, 2]]

/-! ### Claim theorems -/

/-- C2 (counterexample to the claim as stated): there is no store, work list
and propagator run at all in which a variable's non-empty domain becomes
empty — the removal step is guarded by `len(domain) != 1`, so a domain of
size 2 shrinks to a singleton and is then never touched again. -/
theorem propagator_cannot_empty_domain :
    ¬ ∃ (ix : ConstrIndex) (fuel : Nat) (s : Store) (seed : List Var)
        (s' : Store) (as : List Var) (v : Var),
      update_domains ix fuel s seed = some (s', as) ∧ dom s v ≠ [] ∧ dom s' v = [] := by
  rintro ⟨ix, fuel, s, seed, s', as, v, h, hne, hemp⟩
  exact (update_domains_steps h).ne v hne hemp

/-- C2 (amended): the propagator can never empty a domain: in every
successful run of `update_domains`, every variable whose domain was
non-empty before still has a non-empty domain afterwards. -/
theorem update_domains_never_empties {ix : ConstrIndex} {fuel : Nat}
    {s : Store} {seed : List Var} {s' : Store} {as : List Var}
    (h : update_domains ix fuel s seed = some (s', as)) :
    ∀ v, dom s v ≠ [] → dom s' v ≠ [] :=
  (update_domains_steps h).ne

theorem update_domains_never_empties_witness :
    update_domains exIndex2 4 exStoreSeed [0] = some ([(0, [1]), (1, [2])], [0, 1]) ∧
    ∀ v, dom exStoreSeed v ≠ [] → dom [(0, [1]), (1, [2])] v ≠ [] :=
  ⟨rfl, @update_domains_never_empties exIndex2 4 exStoreSeed [0] [(0, [1]), (1, [2])] [0, 1] rfl⟩

/-- C5: `problem.splits` is incremented exactly at committed branch points
(a candidate that passes the post-propagation consistency check, just before
the recursive call) and never for a candidate that fails the check; hence
the splits counter never advances faster than the ghost counter of candidate
values tried: `splits' - splits ≤ tried' - tried` (stated without truncated
subtraction as `splits' + tried ≤ splits + tried'`, with both counters
monotone). -/
theorem backtrack_splits_le_tried {cfg : Config} {ix : ConstrIndex}
    {fuel : Nat} {store : Store} {sp tr : Nat} {r : BTResult} {st : Store} {sp' tr' : Nat}
    (h : backtrack cfg ix fuel store sp tr = some (r, st, sp', tr')) :
    sp ≤ sp' ∧ tr ≤ tr' ∧ sp' + tr ≤ sp + tr' :=
  backtrack_counts h

theorem backtrack_splits_le_tried_witness :
    backtrack cfgPlain exIndex2 5 exStore2 0 0
      = some (.solution [(0, [1]), (1, [2])], [(0, [1]), (1, [2])], 1, 1) ∧
    (0 ≤ 1 ∧ 0 ≤ 1 ∧ 1 + 0 ≤ 0 + 1) :=
  ⟨rfl, @backtrack_splits_le_tried cfgPlain exIndex2 5 exStore2 0 0
    (.solution [(0, [1]), (1, [2])]) [(0, [1]), (1, [2])] 1 1 rfl⟩

/-- C7: on a store that is a propagation fixed point (no singleton
variable's value occurs in the domain of a constraint-neighbour of size
greater than one), `update_domains` with an empty seed processes the scanned
singleton work list without changing any domain: it returns the store
syntactically unchanged. -/
theorem update_domains_noop_on_fixed_point {ix : ConstrIndex} {fuel : Nat} {s : Store}
    (hnd : (s.map Prod.fst).Nodup)
    (hfix : ∀ v ∈ s.map Prod.fst, ∀ c ∈ ix v, ∀ w ∈ getOthers c v,
      (dom s v).length = 1 → 1 < (dom s w).length → ∀ a ∈ dom s v, a ∉ dom s w)
    (hf : s.length ≤ fuel) :
    update_domains ix fuel s [] =
      some (s, (s.filter fun p => p.2.length == 1).map Prod.fst) :=
  update_domains_fixed_point hnd hfix hf

theorem update_domains_noop_on_fixed_point_witness :
    (exStoreFix.map Prod.fst).Nodup ∧
    (∀ v ∈ exStoreFix.map Prod.fst, ∀ c ∈ exIndex2 v, ∀ w ∈ getOthers c v,
      (dom exStoreFix v).length = 1 → 1 < (dom exStoreFix w).length →
      ∀ a ∈ dom exStoreFix v, a ∉ dom exStoreFix w) ∧
    exStoreFix.length ≤ 2 ∧
    update_domains exIndex2 2 exStoreFix [] =
      some (exStoreFix, (exStoreFix.filter fun p => p.2.length == 1).map Prod.fst) :=
  ⟨by decide, by decide, by decide,
    update_domains_noop_on_fixed_point (by decide) (by decide) (by decide)⟩

/-- C8: whenever `backtrack` exhausts every candidate value and returns the
failure sentinel, the store it leaves behind is exactly the snapshot taken
at the call's entry: the caller sees the store it passed in. -/
theorem backtrack_fail_restores_snapshot {cfg : Config} {ix : ConstrIndex}
    {fuel : Nat} {store : Store} {sp tr sp' tr' : Nat} {st : Store}
    (h : backtrack cfg ix fuel store sp tr = some (.fail, st, sp', tr')) :
    st = store :=
  backtrack_fail_store h

theorem backtrack_fail_restores_snapshot_witness :
    backtrack cfgPlain exIndex3 5 exStore3 0 0 = some (.fail, exStore3, 0, 2) ∧
    exStore3 = exStore3 :=
  ⟨rfl, @backtrack_fail_restores_snapshot cfgPlain exIndex3 5 exStore3 0 0 0 2 exStore3 rfl⟩

/-- C9: the propagator never modifies the domain of a variable that is
already assigned: every variable whose domain has exactly one value before
`update_domains` has an identical domain after it, for every store and
every seed list (conditional on the run succeeding, i.e. not raising). -/
theorem update_domains_keeps_assigned_domains {ix : ConstrIndex} {fuel : Nat}
    {s : Store} {seed : List Var} {s' : Store} {as : List Var}
    (h : update_domains ix fuel s seed = some (s', as)) :
    ∀ v, (dom s v).length = 1 → dom s' v = dom s v :=
  (update_domains_steps h).frame

theorem update_domains_keeps_assigned_domains_witness :
    update_domains exIndex2 4 exStoreSeed [0] = some ([(0, [1]), (1, [2])], [0, 1]) ∧
    ∀ v, (dom exStoreSeed v).length = 1 → dom [(0, [1]), (1, [2])] v = dom exStoreSeed v :=
  ⟨rfl, @update_domains_keeps_assigned_domains exIndex2 4 exStoreSeed [0]
    [(0, [1]), (1, [2])] [0, 1] rfl⟩

/-- C10: `backtrack` terminates.  Each committed branch strictly decreases
the number of keys with more than one candidate (`countBig`): the selected
variable collapses to a singleton and propagation only shrinks domains, so
recursion depth is bounded by the number of variables; any fuel beyond
`countBig` (in particular, beyond the number of variables) never runs out
and the search returns a value. -/
theorem backtrack_terminates_within_var_bound {cfg : Config} {ix : ConstrIndex}
    {fuel : Nat} {store : Store} {sp tr : Nat}
    (hnd : (store.map Prod.fst).Nodup)
    (_hne : ∀ v ∈ store.map Prod.fst, dom store v ≠ [])
    (hf : countBig store < fuel) :
    ∃ out, backtrack cfg ix fuel store sp tr = some out :=
  backtrack_total hnd hf

theorem backtrack_terminates_within_var_bound_witness :
    (exStore2.map Prod.fst).Nodup ∧
    (∀ v ∈ exStore2.map Prod.fst, dom exStore2 v ≠ []) ∧
    countBig exStore2 < 3 ∧
    ∃ out, backtrack cfgPlain exIndex2 3 exStore2 0 0 = some out :=
  ⟨by decide, by decide, by decide,
    backtrack_terminates_within_var_bound (by decide) (by decide) (by decide)⟩

/-- C1 (counterexample to the claim as stated): with forward checking
disabled, the code still runs `update_domains` at every branch point.  On
the two-variable problem, the branch assignment `0 := [1]` propagates and
shrinks variable 1's domain to `[2]` (third conjunct) although
`forward_checking = false`, and the actual search commits only 1 split over
1 tried candidate, whereas the claim's skip-propagation reading
(`backtrackClaim`) needs 2 splits over 3 tried candidates. -/
theorem backtrack_propagates_without_fc :
    backtrack cfgPlain exIndex2 5 exStore2 0 0
      = some (.solution [(0, [1]), (1, [2])], [(0, [1]), (1, [2])], 1, 1) ∧
    backtrackClaim cfgPlain exIndex2 5 exStore2 0 0
      = some (.solution [(0, [1]), (1, [2])], [(0, [1]), (1, [2])], 2, 3) ∧
    update_domains exIndex2 ((setDom exStore2 0 [1]).length + 2)
        (setDom exStore2 0 [1]) [0]
      = some ([(0, [1]), (1, [2])], [0, 1]) :=
  ⟨rfl, rfl, rfl⟩

/-- C1 (amended): the per-branch propagation in `backtrack` runs at every
candidate regardless of the forward-checking flag: `backtrack` never
consults the flag, so two configurations differing only in it produce
identical searches; the flag gates only the initial whole-store propagation
in `getSolution` (with the flag off, `getSolution` is exactly `backtrack`
on the untouched store). -/
theorem backtrack_ignores_fc_flag :
    (∀ (ix : ConstrIndex) (fuel : Nat) (m d b b' : Bool) (s : Store) (sp tr : Nat),
      backtrack ⟨b, m, d⟩ ix fuel s sp tr = backtrack ⟨b', m, d⟩ ix fuel s sp tr) ∧
    (∀ (ix : ConstrIndex) (fuel : Nat) (m d : Bool) (s : Store),
      getSolution ⟨false, m, d⟩ ix fuel s = backtrack ⟨false, m, d⟩ ix fuel s 0 0) := by
  refine ⟨fun ix fuel m d b b' s sp tr => backtrack_fc_any fuel m d b b' s sp tr, ?_⟩
  intro ix fuel m d s
  rfl

/-- C3 (counterexample to the claim as stated): with singleton domains
`1, 1, 2`, the check is true for SOME variable of the constraint (the one
holding 2) although the values are not pairwise distinct, so the
"for some v" reading of the claim is false. -/
theorem check_exists_version_false :
    ¬ ((∃ v ∈ ([0, 1, 2] : List Var), check exStoreDup [0, 1, 2] v = true) ↔
      List.Pairwise (fun a b => dom exStoreDup a ≠ dom exStoreDup b) [0, 1, 2]) := by
  decide

/-- C3 (amended): for a duplicate-free constraint whose variables all hold
singleton domains, the consistency check is true for EVERY variable of the
constraint iff the singleton values are pairwise distinct. -/
theorem check_all_singletons_iff_pairwise_distinct {s : Store} {c : Constraint}
    (hs : ∀ v ∈ c, (dom s v).length = 1) (hnd : c.Nodup) :
    (∀ v ∈ c, check s c v = true) ↔
      List.Pairwise (fun a b => dom s a ≠ dom s b) c := by
  constructor
  · intro hall
    refine hnd.pairwise_of_forall_ne ?_
    intro a ha b hb hab
    have hc := check_eq_true_iff.1 (hall b hb)
    intro he
    exact hc a ha hab ⟨hs a ha, he⟩
  · intro hp v hv
    rw [check_eq_true_iff]
    intro w hw hwv hand
    have hsym : Symmetric fun a b => dom s a ≠ dom s b :=
      fun x y hxy he => hxy he.symm
    exact (List.Pairwise.forall hsym hp) hw hv hwv hand.2

theorem check_all_singletons_iff_pairwise_distinct_witness :
    (∀ v ∈ ([0, 1] : List Var), (dom exStoreDis v).length = 1) ∧
    ([0, 1] : List Var).Nodup ∧
    ((∀ v ∈ ([0, 1] : List Var), check exStoreDis [0, 1] v = true) ↔
      List.Pairwise (fun a b => dom exStoreDis a ≠ dom exStoreDis b) [0, 1]) :=
  ⟨by decide, by decide,
    check_all_singletons_iff_pairwise_distinct (by decide) (by decide)⟩

/-- C4: starting from non-empty domains, `getSolution` returns either the
failure sentinel (a constructor distinct from any assignment) or a store in
which every variable's domain has exactly one value — never a partially
collapsed store. -/
theorem getSolution_fail_or_fully_assigned {cfg : Config} {ix : ConstrIndex}
    {fuel : Nat} {store : Store} {r : BTResult} {st : Store} {sp tr : Nat}
    (hne : ∀ v ∈ store.map Prod.fst, dom store v ≠ [])
    (h : getSolution cfg ix fuel store = some (r, st, sp, tr)) :
    r = .fail ∨ ∃ sol, r = .solution sol ∧
      ∀ v ∈ sol.map Prod.fst, (dom sol v).length = 1 := by
  unfold getSolution at h
  split at h
  · split at h
    next => exact absurd h (by simp)
    next s1 as hupd =>
      cases r with
      | fail => exact Or.inl rfl
      | solution sol =>
        refine Or.inr ⟨sol, rfl, ?_⟩
        exact backtrack_solution
          (allNonempty_steps (update_domains_steps hupd) hne) h
  · cases r with
    | fail => exact Or.inl rfl
    | solution sol => exact Or.inr ⟨sol, rfl, backtrack_solution hne h⟩

theorem getSolution_fail_or_fully_assigned_witness :
    (∀ v ∈ exStore2.map Prod.fst, dom exStore2 v ≠ []) ∧
    getSolution cfgPlain exIndex2 5 exStore2
      = some (.solution [(0, [1]), (1, [2])], [(0, [1]), (1, [2])], 1, 1) ∧
    (BTResult.solution [(0, [1]), (1, [2])] = .fail ∨
      ∃ sol, BTResult.solution [(0, [1]), (1, [2])] = .solution sol ∧
        ∀ v ∈ sol.map Prod.fst, (dom sol v).length = 1) :=
  ⟨by decide, rfl,
    @getSolution_fail_or_fully_assigned cfgPlain exIndex2 5 exStore2
      (.solution [(0, [1]), (1, [2])]) [(0, [1]), (1, [2])] 1 1 (by decide) rfl⟩

unseal List.merge List.mergeSort in
/-- C6 (counterexample to the claim as stated): `sort_both` returns
variable 0, and variables 0 and 1 both have the minimal domain size 2 among
the unassigned variables, yet variable 1 has strictly fewer distinct
unassigned constraint-neighbours (1, namely variable 2) than variable 0
(3, namely variables 2, 3, 4) — so the returned variable does not minimise
the neighbour count taken over the full unassigned set, because `sort_dh`
receives only the restricted minimum-size group as its `unassigned`
argument. -/
theorem sort_both_not_global_dh_counts :
    sort_both exStore6 exIndex6 (unassignedVars exStore6) = some 0 ∧
    0 ∈ unassignedVars exStore6 ∧ 1 ∈ unassignedVars exStore6 ∧
    (dom exStore6 0).length = 2 ∧ (dom exStore6 1).length = 2 ∧
    (∀ w ∈ unassignedVars exStore6, 2 ≤ (dom exStore6 w).length) ∧
    (cList exIndex6 (unassignedVars exStore6) 1).length <
      (cList exIndex6 (unassignedVars exStore6) 0).length := by
  refine ⟨by decide, by decide, by decide, by decide, by decide, by decide, by decide⟩

/-- C6 (amended): for a non-empty unassigned list whose domains all have at
least two values, `sort_both` returns a variable of minimal domain size
which, among the variables of that minimal size, has the lexicographically
least pair (neighbour count, identifier) — where the neighbour count is the
number of distinct constraint-neighbours taken WITHIN that minimum-size
group (the restricted list is what `sort_dh` receives), not within the full
unassigned set. -/
theorem sort_both_group_restricted_dh {s : Store} {ix : ConstrIndex} {u : List Var}
    (hne : u ≠ []) (h2 : ∀ v ∈ u, 2 ≤ (dom s v).length) :
    ∃ v, sort_both s ix u = some v ∧ v ∈ u ∧
      (∀ w ∈ u, (dom s v).length ≤ (dom s w).length) ∧
      ∀ w ∈ u.filter (fun w' => (dom s w').length == (dom s v).length),
        (cList ix (u.filter fun w' => (dom s w').length == (dom s v).length) v).length
            < (cList ix (u.filter fun w' => (dom s w').length == (dom s v).length) w).length
        ∨ ((cList ix (u.filter fun w' => (dom s w').length == (dom s v).length) v).length
            = (cList ix (u.filter fun w' => (dom s w').length == (dom s v).length) w).length
          ∧ v ≤ w) := by
  obtain ⟨v, m, hsb, hvu, hlen, hmin, hvG, hlex⟩ := sort_both_spec s ix hne h2
  subst hlen
  refine ⟨v, hsb, hvu, hmin, ?_⟩
  intro w hw
  have hl := hlex w hw
  rw [lexLe_iff] at hl
  simpa using hl

theorem sort_both_group_restricted_dh_witness :
    (([0] : List Var) ≠ []) ∧
    (∀ v ∈ ([0] : List Var), 2 ≤ (dom [(0, [1, 2])] v).length) ∧
    (∃ v, sort_both [(0, [1, 2])] (mapVarToConstraints []) [0] = some v ∧ v ∈ ([0] : List Var) ∧
      (∀ w ∈ ([0] : List Var), (dom [(0, [1, 2])] v).length ≤ (dom [(0, [1, 2])] w).length) ∧
      ∀ w ∈ ([0] : List Var).filter
          (fun w' => (dom [(0, [1, 2])] w').length == (dom [(0, [1, 2])] v).length),
        (cList (mapVarToConstraints [])
            (([0] : List Var).filter fun w' =>
              (dom [(0, [1, 2])] w').length == (dom [(0, [1, 2])] v).length) v).length
            < (cList (mapVarToConstraints [])
                (([0] : List Var).filter fun w' =>
                  (dom [(0, [1, 2])] w').length == (dom [(0, [1, 2])] v).length) w).length
        ∨ ((cList (mapVarToConstraints [])
              (([0] : List Var).filter fun w' =>
                (dom [(0, [1, 2])] w').length == (dom [(0, [1, 2])] v).length) v).length
            = (cList (mapVarToConstraints [])
                (([0] : List Var).filter fun w' =>
                  (dom [(0, [1, 2])] w').length == (dom [(0, [1, 2])] v).length) w).length
          ∧ v ≤ w)) :=
  ⟨by decide, by decide, sort_both_group_restricted_dh (by decide) (by decide)⟩

end CSP
